import Mathlib

/-!
Verification development for the qudit-tree compiler: a shallow embedding of
the expression-tree data model (`src/tree/`), the tree optimizer
(`src/tree/optimizer.rs`), the bytecode generator and optimizer
(`src/bytecode/`), the specialization/arena layout (`src/bytecode/bytecode.rs`)
and the QVM driver (`src/qvm.rs`), together with theorems about them.

Machine integers are modelled as `Nat`; complex scalars are modelled as exact
integers (the passes under study are scalar-generic: they move and combine
whole matrices and never inspect scalar values).  Code that can panic is
modelled as `Option`-valued, `none` standing for the panic.
-/

/-- Helper: insertion of a value into an ascending list (used to model the
`all_qudits.sort()` call of `ContractNode::new`). -/
def insertAsc (a : Nat) : List Nat → List Nat
  | [] => [a]
  | b :: rest => if a ≤ b then a :: b :: rest else b :: insertAsc a rest

/-- Helper: ascending insertion sort over naturals, modelling `Vec::sort`. -/
def sortAsc (l : List Nat) : List Nat :=
  l.foldr insertAsc []

/-- Helper: apply an index permutation to a list, `perm.map (xs.getD · d)`;
models `perm.iter().map(|&i| xs[i]).collect()`. -/
def permuteIdx (perm : List Nat) (xs : List α) (d : α) : List α :=
  perm.map (fun i => xs.getD i d)

/-- Modelled from the spec: `UnitaryExpression` (crate `qudit_expr`, an
external collaborator) is an opaque handle to a named parameterized unitary
with qudit radices, a parameter count and kernel handles.  Equality is
structural. -/
structure UnitaryExpr where
  name : String
  radices : List Nat
  num_params : Nat
deriving DecidableEq, Repr

/-- Modelled from the spec: the dimension of a leaf expression is the product
of its radices. -/
def UnitaryExpr.dimension (e : UnitaryExpr) : Nat :=
  e.radices.prod

/-- Modelled from the spec: tensor product of two leaf expressions
(`UnitaryExpression::otimes`); radices concatenate, parameters add. -/
def UnitaryExpr.otimes (a b : UnitaryExpr) : UnitaryExpr :=
  ⟨a.name ++ "(x)" ++ b.name, a.radices ++ b.radices, a.num_params + b.num_params⟩

/-- Modelled from the spec: matrix product of two compatible leaf expressions
(`UnitaryExpression::dot`, `a.dot b` is the matrix `a · b`); radices are those
of the operands, parameters add. -/
def UnitaryExpr.dot (a b : UnitaryExpr) : UnitaryExpr :=
  ⟨a.name ++ "(.)" ++ b.name, a.radices, a.num_params + b.num_params⟩

/-- Modelled from the spec: a `QuditPermutation` (crate `qudit_core`) carries
the radices it permutes and the permutation itself. -/
structure QPerm where
  radices : List Nat
  perm : List Nat
deriving DecidableEq, Repr

/-- Modelled from the spec: the permuted radices of a `QuditPermutation`. -/
def QPerm.permuted_radices (p : QPerm) : List Nat :=
  permuteIdx p.perm p.radices 0

/-- Embedding of `ExpressionTree` (src/tree/tree.rs).  The `Contract`
constructor carries the four construction inputs of `ContractNode::new`
together with the fields the `TreeOptimizer` mutates in place
(`pre_out_perm`, `out_matrix_shape`, `skip_left`, `skip_right`); the other
`ContractNode` fields are immutable after construction and are recomputed by
the functions below exactly as `ContractNode::new` computes them. -/
inductive ExpressionTree where
  | Constant (child : ExpressionTree)
  | Contract (left right : ExpressionTree) (left_qudits right_qudits : List Nat)
      (pre_out_perm : List Nat) (out_matrix_shape : Nat × Nat)
      (skip_left skip_right : Bool)
  | Identity (radices : List Nat)
  | Kron (left right : ExpressionTree)
  | Leaf (expr : UnitaryExpr)
  | Mul (left right : ExpressionTree)
  | Perm (child : ExpressionTree) (perm : QPerm)
deriving DecidableEq, Repr

/-- Embedding of the `contracting_qudits` set of `ContractNode::new`: the
distinct qudit labels shared by `left_qudits` and `right_qudits`. -/
def contracting_qudits (lq rq : List Nat) : List Nat :=
  lq.dedup.filter (fun q => decide (q ∈ rq))

/-- Embedding of the sorted `all_qudits` union of `ContractNode::new`. -/
def all_qudits (lq rq : List Nat) : List Nat :=
  sortAsc ((lq ++ rq).dedup)

/-- Embedding of the `radix_map` of `ContractNode::new`: a shared or left-only
qudit gets its radix from the left operand (at the first position of the label
in `left_qudits`), a right-only qudit from the right operand. -/
def qudit_radix (lq rq lrad rrad : List Nat) (q : Nat) : Nat :=
  if q ∈ lq then lrad.getD (lq.indexOf q) 0 else rrad.getD (rq.indexOf q) 0

/-- Embedding of the radices of a `ContractNode` (the row half of its
`out_tensor_shape`): the sorted union of the operand qudits mapped through the
radix map. -/
def contract_radices (lq rq lrad rrad : List Nat) : List Nat :=
  (all_qudits lq rq).map (qudit_radix lq rq lrad rrad)

/-- Embedding of `ExpressionTree`'s `QuditSystem::radices` (src/tree/tree.rs,
dispatching to each node of src/tree/). -/
def ExpressionTree.radices : ExpressionTree → List Nat
  | .Constant c => c.radices
  | .Contract l r lq rq _ _ _ _ => contract_radices lq rq l.radices r.radices
  | .Identity rs => rs
  | .Kron l r => l.radices ++ r.radices
  | .Leaf e => e.radices
  | .Mul l _ => l.radices
  | .Perm _ p => p.permuted_radices

/-- Embedding of `ExpressionTree`'s `QuditSystem::dimension`; the `Contract`
case is the `dimension` field computed by `ContractNode::new` as the product
of the radix map's values. -/
def ExpressionTree.dimension : ExpressionTree → Nat
  | .Constant c => c.dimension
  | .Contract l r lq rq _ _ _ _ => (contract_radices lq rq l.radices r.radices).prod
  | .Identity rs => rs.prod
  | .Kron l r => l.dimension * r.dimension
  | .Leaf e => e.dimension
  | .Mul l _ => l.dimension
  | .Perm c _ => c.dimension

/-- Embedding of `ExpressionTree`'s `HasParams::num_params` (src/tree/tree.rs):
a `Constant` or `Identity` node reports zero, the composite nodes report the
cached sums of their children, a `Perm` node its child's count. -/
def ExpressionTree.num_params : ExpressionTree → Nat
  | .Constant _ => 0
  | .Contract l r _ _ _ _ _ _ => l.num_params + r.num_params
  | .Identity _ => 0
  | .Kron l r => l.num_params + r.num_params
  | .Leaf e => e.num_params
  | .Mul l r => l.num_params + r.num_params
  | .Perm c _ => c.num_params

/-- Embedding of `ConstantNode::new` (src/tree/constant.rs): it wraps any
child without checking anything. -/
def constant_new (child : ExpressionTree) : ExpressionTree :=
  .Constant child

/-- Embedding of `KronNode::new` (src/tree/kron.rs): no checks are made. -/
def kron_new (left right : ExpressionTree) : ExpressionTree :=
  .Kron left right

/-- Embedding of `MulNode::new` (src/tree/mul.rs): panics (`none`) when the
radices of the operands differ. -/
def mul_new (left right : ExpressionTree) : Option ExpressionTree :=
  if right.radices ≠ left.radices then none
  else some (.Mul left right)

/-- Embedding of `PermNode::new` (src/tree/perm.rs): panics (`none`) when the
permutation's qudit count or radices do not match the child's. -/
def perm_new (child : ExpressionTree) (p : QPerm) : Option ExpressionTree :=
  if p.radices.length ≠ child.radices.length then none
  else if p.radices ≠ child.radices then none
  else some (.Perm child p)

/-- Embedding of the `left_perm` computed by `ContractNode::new`
(src/tree/contract.rs): contracting row legs first (in `left_qudits` order),
then the remaining row legs, then all column legs in original order. -/
def contract_left_perm (lq rq : List Nat) : List Nat :=
  (lq.filter (fun q => decide (q ∈ rq))).map (fun q => lq.indexOf q)
    ++ (lq.filter (fun q => decide (q ∉ rq))).map (fun q => lq.indexOf q)
    ++ (List.range lq.length).map (fun q => q + lq.length)

/-- Embedding of the `right_perm` computed by `ContractNode::new`: row legs in
original order, then non-contracting column legs, then contracting column
legs. -/
def contract_right_perm (lq rq : List Nat) : List Nat :=
  List.range rq.length
    ++ (rq.filter (fun q => decide (q ∉ lq))).map (fun q => rq.indexOf q + rq.length)
    ++ (rq.filter (fun q => decide (q ∈ lq))).map (fun q => rq.indexOf q + rq.length)

/-- Embedding of the qudit index labels of `ContractNode::new` ("{q}r" is
`(q, true)`, "{q}l" is `(q, false)`). -/
def contract_labels (qudits : List Nat) : List (Nat × Bool) :=
  qudits.map (fun q => (q, true)) ++ qudits.map (fun q => (q, false))

/-- Embedding of the `pre_out_order` of `ContractNode::new`: the permuted
right labels without their trailing contracting legs, then the permuted left
labels without their leading contracting legs. -/
def contract_pre_out_order (lq rq : List Nat) : List (Nat × Bool) :=
  let nc := (contracting_qudits lq rq).length
  let leftMap := permuteIdx (contract_left_perm lq rq) (contract_labels lq) (0, true)
  let rightMap := permuteIdx (contract_right_perm lq rq) (contract_labels rq) (0, true)
  rightMap.take (rightMap.length - nc) ++ leftMap.drop nc

/-- Embedding of the `correct_order` of `ContractNode::new`: row labels of the
sorted union, then column labels. -/
def contract_correct_order (lq rq : List Nat) : List (Nat × Bool) :=
  (all_qudits lq rq).map (fun q => (q, true))
    ++ (all_qudits lq rq).map (fun q => (q, false))

/-- Embedding of the `pre_out_perm` of `ContractNode::new`: the permutation
mapping `pre_out_order` to `correct_order` (position lookup per label). -/
def contract_pre_out_perm (lq rq : List Nat) : List Nat :=
  (contract_correct_order lq rq).map
    (fun lab => (contract_pre_out_order lq rq).indexOf lab)

/-- Embedding of the `overlap_dimension` of `ContractNode::new`: the product
of the radices of the contracting qudits. -/
def overlap_dimension (lq rq lrad rrad : List Nat) : Nat :=
  ((contracting_qudits lq rq).map (qudit_radix lq rq lrad rrad)).prod

/-- Embedding of the `pre_out_tensor_shape` of `ContractNode::new`. -/
def contract_pre_out_tensor_shape (lq rq lrad rrad : List Nat) : List Nat :=
  (contract_pre_out_order lq rq).map (fun lab => qudit_radix lq rq lrad rrad lab.1)

/-- Embedding of the `left_contraction_shape` of `ContractNode::new`. -/
def contract_left_shape (l : ExpressionTree) (lq rq rrad : List Nat) : Nat × Nat :=
  let ov := overlap_dimension lq rq l.radices rrad
  (ov, l.dimension * l.dimension / ov)

/-- Embedding of the `right_contraction_shape` of `ContractNode::new`. -/
def contract_right_shape (r : ExpressionTree) (lq rq lrad : List Nat) : Nat × Nat :=
  let ov := overlap_dimension lq rq lrad r.radices
  (r.dimension * r.dimension / ov, ov)

/-- Embedding of the `left_tensor_shape` of `ContractNode::new`: the left
radices twice (row legs then column legs). -/
def contract_left_tensor_shape (l : ExpressionTree) : List Nat :=
  l.radices ++ l.radices

/-- Embedding of the `right_tensor_shape` of `ContractNode::new`. -/
def contract_right_tensor_shape (r : ExpressionTree) : List Nat :=
  r.radices ++ r.radices

/-- Embedding of `ContractNode::new` (src/tree/contract.rs): panics (`none`)
when no qudit label is shared, or — while walking the sorted union and
building the radix map — when a shared label's radix in the left operand
differs from its radix in the right operand; otherwise builds the node with
skip flags cleared and the output matrix square of the union dimension. -/
def contract_new (l r : ExpressionTree) (lq rq : List Nat) : Option ExpressionTree :=
  if (contracting_qudits lq rq).length = 0 then none
  else if ¬ ((all_qudits lq rq).all fun q =>
      if (contracting_qudits lq rq).contains q
      then l.radices.getD (lq.indexOf q) 0 == r.radices.getD (rq.indexOf q) 0
      else true)
  then none
  else
    let d := (contract_radices lq rq l.radices r.radices).prod
    some (.Contract l r lq rq (contract_pre_out_perm lq rq) (d, d) false false)

/-- Embedding of `TreeOptimizer::fuse_common_operations`
(src/tree/optimizer.rs): a post-order rewrite; a `Kron` of two leaves fuses to
`left ⊗ right`, a `Mul` of two leaves fuses to `right · left`; `Perm` and
`Contract` children are rebuilt through their constructors; `Identity`,
`Leaf` and `Constant` nodes are returned unchanged. -/
def fuse_common_operations : ExpressionTree → Option ExpressionTree
  | .Identity rs => some (.Identity rs)
  | .Kron l r => do
      let l' ← fuse_common_operations l
      let r' ← fuse_common_operations r
      match l', r' with
      | .Leaf a, .Leaf b => some (.Leaf (a.otimes b))
      | _, _ => some (kron_new l' r')
  | .Mul l r => do
      let l' ← fuse_common_operations l
      let r' ← fuse_common_operations r
      match l', r' with
      | .Leaf a, .Leaf b => some (.Leaf (b.dot a))
      | _, _ => mul_new l' r'
  | .Leaf e => some (.Leaf e)
  | .Constant c => some (.Constant c)
  | .Perm c p => do
      let c' ← fuse_common_operations c
      perm_new c' p
  | .Contract l r lq rq _ _ _ _ => do
      let l' ← fuse_common_operations l
      let r' ← fuse_common_operations r
      contract_new l' r' lq rq

/-- Embedding of `ContractNode::fuse_output_perm` (src/tree/contract.rs)
applied to a `Contract` tree node: composes a permutation into
`pre_out_perm` and overwrites `out_matrix_shape`; leaves any other node
unchanged (the optimizer only calls it on `Contract` children). -/
def fuse_output_perm (upd : Option (List Nat × (Nat × Nat))) :
    ExpressionTree → ExpressionTree
  | .Contract l r lq rq pop oms sL sR =>
      match upd with
      | some (p, sh) => .Contract l r lq rq (permuteIdx p pop 0) sh sL sR
      | none => .Contract l r lq rq pop oms sL sR
  | t => t

/-- Helper: whether a tree's root is a `Contract` node. -/
def ExpressionTree.isContract : ExpressionTree → Bool
  | .Contract _ _ _ _ _ _ _ _ => true
  | _ => false

/-- Embedding of `tree.traverse_mut(fuse_contraction_pre_post_permutations)`
(src/tree/optimizer.rs together with `traverse_mut` of src/tree/tree.rs): a
pre-order pass; at each node, first the update queued by the node's parent
(if any) is applied via `fuse_output_perm`, then — when the node is a
`Contract` — each `Contract` child is queued its side's pre-permutation and
contraction shape, and the corresponding skip flag is set; then the children
are traversed. -/
def traverse_fuse_perms (upd : Option (List Nat × (Nat × Nat))) :
    ExpressionTree → ExpressionTree
  | .Contract l r lq rq pop oms sL sR =>
      let pop₁ := match upd with
        | some (p, _) => permuteIdx p pop 0
        | none => pop
      let oms₁ := match upd with
        | some (_, sh) => sh
        | none => oms
      let lUpd := if l.isContract
        then some (contract_left_perm lq rq, contract_left_shape l lq rq r.radices)
        else none
      let rUpd := if r.isContract
        then some (contract_right_perm lq rq, contract_right_shape r lq rq l.radices)
        else none
      .Contract (traverse_fuse_perms lUpd l) (traverse_fuse_perms rUpd r) lq rq
        pop₁ oms₁ (sL || l.isContract) (sR || r.isContract)
  | .Kron l r => .Kron (traverse_fuse_perms none l) (traverse_fuse_perms none r)
  | .Mul l r => .Mul (traverse_fuse_perms none l) (traverse_fuse_perms none r)
  | .Perm c p => .Perm (traverse_fuse_perms none c) p
  | .Constant c => .Constant (traverse_fuse_perms none c)
  | .Leaf e => .Leaf e
  | .Identity rs => .Identity rs

/-- Embedding of `TreeOptimizer::constant_propagation` (src/tree/optimizer.rs):
a subtree with zero parameters is wrapped in a fresh `Constant` node (whatever
its root is); otherwise the pass recurses into the children. -/
def constant_propagation (t : ExpressionTree) : ExpressionTree :=
  if t.num_params = 0 then .Constant t
  else match t with
    | .Identity rs => .Identity rs
    | .Kron l r => .Kron (constant_propagation l) (constant_propagation r)
    | .Mul l r => .Mul (constant_propagation l) (constant_propagation r)
    | .Leaf e => .Leaf e
    | .Constant c => .Constant c
    | .Perm c p => .Perm (constant_propagation c) p
    | .Contract l r lq rq pop oms sL sR =>
        .Contract (constant_propagation l) (constant_propagation r) lq rq pop oms sL sR

/-- Embedding of `TreeOptimizer::optimize` (src/tree/optimizer.rs): leaf
fusion, then permutation fusion into contractions, then constant
propagation; `none` models a panic inside leaf fusion's node constructors. -/
def optimize (t : ExpressionTree) : Option ExpressionTree :=
  (fuse_common_operations t).map
    (fun t₁ => constant_propagation (traverse_fuse_perms none t₁))

/-- Embedding of `MatrixBuffer` (src/bytecode/buffer.rs): a virtual matrix
buffer described by its row count, column count and parameter count. -/
structure MatrixBuffer where
  nrows : Nat
  ncols : Nat
  num_params : Nat
deriving DecidableEq, Repr, Inhabited

/-- Embedding of `GeneralizedInstruction` (src/bytecode/generalized.rs). -/
inductive GInst where
  | Write (expr : UnitaryExpr) (param_offset : Nat) (dst : Nat)
  | Matmul (a b c : Nat)
  | Kron (a b c : Nat)
  | FRPR (src : Nat) (shape : List Nat) (perm : List Nat) (dst : Nat)
deriving DecidableEq, Repr

/-- Embedding of `GeneralizedInstruction::offset_buffer_indices`. -/
def GInst.offset_buffer_indices (off : Nat) : GInst → GInst
  | .Write e p d => .Write e p (d + off)
  | .Matmul a b c => .Matmul (a + off) (b + off) (c + off)
  | .Kron a b c => .Kron (a + off) (b + off) (c + off)
  | .FRPR s sh pm d => .FRPR (s + off) sh pm (d + off)

/-- Helper: lookup in an association list modelling a `HashMap<usize, usize>`
whose inserts overwrite (newest binding first). -/
def remapGet (m : List (Nat × Nat)) (k : Nat) : Option Nat :=
  m.lookup k

/-- Embedding of `GeneralizedInstruction::replace_buffer_indices`: each buffer
index present in the map is replaced (a single, non-transitive lookup). -/
def GInst.replace_buffer_indices (m : List (Nat × Nat)) : GInst → GInst
  | .Write e p d => .Write e p ((remapGet m d).getD d)
  | .Matmul a b c =>
      .Matmul ((remapGet m a).getD a) ((remapGet m b).getD b) ((remapGet m c).getD c)
  | .Kron a b c =>
      .Kron ((remapGet m a).getD a) ((remapGet m b).getD b) ((remapGet m c).getD c)
  | .FRPR s sh pm d => .FRPR ((remapGet m s).getD s) sh pm ((remapGet m d).getD d)

/-- Embedding of `Bytecode` (src/bytecode/bytecode.rs); `merged_buffers` is
always empty in the current pipeline and is omitted. -/
structure Bytecode where
  expression_set : List UnitaryExpr
  static_code : List GInst
  dynamic_code : List GInst
  matrix_buffers : List MatrixBuffer
deriving DecidableEq, Repr

/-- Embedding of the mutable state of `BytecodeGenerator`
(src/bytecode/generator.rs). -/
structure GenState where
  expression_set : List UnitaryExpr
  static_code : List GInst
  dynamic_code : List GInst
  matrix_buffers : List MatrixBuffer
  param_counter : Nat
  static_tree_cache : List (ExpressionTree × Nat)
deriving DecidableEq, Repr

/-- Embedding of `BytecodeGenerator::new`: the empty generator state. -/
def genEmpty : GenState :=
  ⟨[], [], [], [], 0, []⟩

/-- Helper: insertion into the generator's `HashSet<UnitaryExpression>`,
modelled as a duplicate-free list. -/
def insertExpr (e : UnitaryExpr) (s : List UnitaryExpr) : List UnitaryExpr :=
  if e ∈ s then s else s ++ [e]

/-- Embedding of `BytecodeGenerator::parse` (src/bytecode/generator.rs).
`none` models a panic: the `unreachable!` arms for `Identity` and `Perm`, and
the `assert!` that a constant subtree generates no nested static code.  The
result is the buffer index holding the subtree's value, with the updated
generator state. -/
def parse : ExpressionTree → GenState → Option (Nat × GenState)
  | .Identity _, _ => none
  | .Kron l r, s => do
      let (a, s₁) ← parse l s
      let (b, s₂) ← parse r s₁
      let t : ExpressionTree := .Kron l r
      let out := s₂.matrix_buffers.length
      some (out, { s₂ with
        matrix_buffers :=
          s₂.matrix_buffers ++ [⟨t.dimension, t.dimension, t.num_params⟩],
        dynamic_code := s₂.dynamic_code ++ [.Kron a b out] })
  | .Mul l r, s => do
      let (a, s₁) ← parse l s
      let (b, s₂) ← parse r s₁
      let t : ExpressionTree := .Mul l r
      let out := s₂.matrix_buffers.length
      some (out, { s₂ with
        matrix_buffers :=
          s₂.matrix_buffers ++ [⟨t.dimension, t.dimension, t.num_params⟩],
        dynamic_code := s₂.dynamic_code ++ [.Matmul b a out] })
  | .Leaf g, s =>
      let out := s.matrix_buffers.length
      some (out, { s with
        matrix_buffers :=
          s.matrix_buffers ++ [⟨g.dimension, g.dimension, g.num_params⟩],
        dynamic_code := s.dynamic_code ++ [.Write g s.param_counter out],
        param_counter := s.param_counter + g.num_params,
        expression_set := insertExpr g s.expression_set })
  | .Constant c, s => do
      let t : ExpressionTree := .Constant c
      match (s.static_tree_cache.lookup t) with
      | some idx => some (idx, s)
      | none => do
          let (_, sub) ← parse c genEmpty
          let offset := s.matrix_buffers.length
          if sub.static_code ≠ [] then none
          else
            let bufs := s.matrix_buffers ++ sub.matrix_buffers
            let out := bufs.length - 1
            some (out, { s with
              matrix_buffers := bufs,
              static_code :=
                s.static_code ++ sub.dynamic_code.map (GInst.offset_buffer_indices offset),
              expression_set := sub.expression_set.foldl (fun acc e => insertExpr e acc)
                s.expression_set,
              static_tree_cache := s.static_tree_cache ++ [(t, out)] })
  | .Perm _ _, _ => none
  | .Contract l r lq rq pop oms sL sR, s => do
      let (a, s₁) ← parse l s
      let (b, s₂) ← parse r s₁
      let lcs := contract_left_shape l lq rq r.radices
      let rcs := contract_right_shape r lq rq l.radices
      let (left, s₃) :=
        if sL then (a, s₂)
        else
          let out := s₂.matrix_buffers.length
          (out, { s₂ with
            matrix_buffers := s₂.matrix_buffers ++ [⟨lcs.1, lcs.2, l.num_params⟩],
            dynamic_code := s₂.dynamic_code ++
              [.FRPR a (contract_left_tensor_shape l) (contract_left_perm lq rq) out] })
      let (right, s₄) :=
        if sR then (b, s₃)
        else
          let out := s₃.matrix_buffers.length
          (out, { s₃ with
            matrix_buffers := s₃.matrix_buffers ++ [⟨rcs.1, rcs.2, r.num_params⟩],
            dynamic_code := s₃.dynamic_code ++
              [.FRPR b (contract_right_tensor_shape r) (contract_right_perm lq rq) out] })
      let np := l.num_params + r.num_params
      let pre_out := s₄.matrix_buffers.length
      let s₅ : GenState := { s₄ with
        matrix_buffers := s₄.matrix_buffers ++ [⟨rcs.1, lcs.2, np⟩],
        dynamic_code := s₄.dynamic_code ++ [.Matmul right left pre_out] }
      let out := s₅.matrix_buffers.length
      some (out, { s₅ with
        matrix_buffers := s₅.matrix_buffers ++ [⟨oms.1, oms.2, np⟩],
        dynamic_code := s₅.dynamic_code ++
          [.FRPR pre_out (contract_pre_out_tensor_shape lq rq l.radices r.radices) pop out] })

/-- Embedding of `BytecodeGenerator::generate`: run `parse` from the empty
state and package the final state as a `Bytecode`. -/
def generate (t : ExpressionTree) : Option Bytecode :=
  (parse t genEmpty).map fun x =>
    ⟨x.2.expression_set, x.2.static_code, x.2.dynamic_code, x.2.matrix_buffers⟩

/-- Embedding of `StaticBytecodeOptimizer::optimize`
(src/bytecode/generator.rs): gate deduplication is commented out, so the pass
only replays `replace_buffer_indices` with an empty map over both code
sections. -/
def static_bytecode_optimize (bc : Bytecode) : Bytecode :=
  { bc with
    static_code := bc.static_code.map (GInst.replace_buffer_indices []),
    dynamic_code := bc.dynamic_code.map (GInst.replace_buffer_indices []) }

/-- Helper: the identity-permutation test of `remove_identity_frpr`:
`perm.iter().enumerate().all(|(i, &j)| i == j)`. -/
def identityPerm (perm : List Nat) : Bool :=
  ((List.range perm.length).zip perm).all fun x => x.1 == x.2

/-- Embedding of the instruction fold inside `remove_identity_frpr`
(src/bytecode/optimizer.rs): an FRPR whose source and destination buffers have
equal row and column counts and whose permutation is the identity is dropped
and its destination is remapped (non-transitively) to its raw source index;
every kept instruction has the current remapping applied. -/
def removeIdentityFrprGo (bufs : List MatrixBuffer) :
    List GInst → List (Nat × Nat) → List GInst
  | [], _ => []
  | inst :: rest, remap =>
      match inst with
      | .FRPR s _sh pm d =>
          if (bufs.getD s default).nrows = (bufs.getD d default).nrows
              ∧ (bufs.getD s default).ncols = (bufs.getD d default).ncols
              ∧ identityPerm pm then
            removeIdentityFrprGo bufs rest ((d, s) :: remap)
          else
            inst.replace_buffer_indices remap :: removeIdentityFrprGo bufs rest remap
      | _ => inst.replace_buffer_indices remap :: removeIdentityFrprGo bufs rest remap

/-- Embedding of `remove_identity_frpr` (src/bytecode/optimizer.rs): the fold
above applied to the dynamic code; static code and buffers pass through. -/
def remove_identity_frpr (bc : Bytecode) : Bytecode :=
  { bc with dynamic_code := removeIdentityFrprGo bc.matrix_buffers bc.dynamic_code [] }

/-- Embedding of `compile` (src/compiler/compiler.rs): generate, run the
static bytecode optimizer, then remove identity FRPRs. -/
def compile (t : ExpressionTree) : Option Bytecode :=
  (generate t).map fun code => remove_identity_frpr (static_bytecode_optimize code)

/-- Helper: the full pipeline of spec scenario 5 — optimize then compile. -/
def optimize_and_compile (t : ExpressionTree) : Option Bytecode :=
  (optimize t).bind compile

/-- Modelled from the spec: a dense matrix of exact scalars (row-major list of
rows).  The numeric kernels and dense multiply are external collaborators; the
QVM, which only moves and combines whole matrices, is modelled over exact
integers. -/
def Mat : Type := List (List Int)

instance : DecidableEq Mat := by
  unfold Mat
  infer_instance

instance : Inhabited Mat := ⟨([] : List (List Int))⟩

/-- Modelled from the spec: the zero-initialized matrix of a freshly allocated
arena buffer. -/
def zeroMat (nrows ncols : Nat) : Mat :=
  List.replicate nrows (List.replicate ncols 0)

/-- Helper: the row count of a model matrix. -/
def matRows (m : Mat) : Nat :=
  List.length m

/-- Helper: the column count of a model matrix. -/
def matCols (m : Mat) : Nat :=
  (List.getD m 0 []).length

/-- Helper: one entry of a model matrix. -/
def matEntry (m : Mat) (i j : Nat) : Int :=
  (List.getD m i []).getD j 0

/-- Modelled from the spec: dense matrix multiplication `A · B` (the dense
matmul primitive is a black box; instruction semantics are
`Matmul(A, B, C): C ← A · B`). -/
def matMul (a b : Mat) : Mat :=
  (List.range (matRows a)).map fun i =>
    (List.range (matCols b)).map fun j =>
      ((List.range (matCols a)).map fun k => matEntry a i k * matEntry b k j).sum

/-- Modelled from the spec: the Kronecker product `A ⊗ B`. -/
def kronProd (a b : Mat) : Mat :=
  (List.range (matRows a * matRows b)).map fun i =>
    (List.range (matCols a * matCols b)).map fun j =>
      matEntry a (i / matRows b) (j / matCols b) *
        matEntry b (i % matRows b) (j % matCols b)

/-- Helper: row-major flattening of a model matrix. -/
def matFlat (m : Mat) : List Int :=
  List.flatten m

/-- Helper: rebuild an `nrows × ncols` model matrix from row-major data. -/
def flatToMat (nrows ncols : Nat) (flat : List Int) : Mat :=
  (List.range nrows).map fun i =>
    (List.range ncols).map fun j => flat.getD (i * ncols + j) 0

/-- Helper: a flat index decomposed into a multi-index for a tensor shape. -/
def unflattenIdx : List Nat → Nat → List Nat
  | [], _ => []
  | _ :: rest, i => (i / rest.prod) :: unflattenIdx rest (i % rest.prod)

/-- Helper: a multi-index recomposed into a flat index for a tensor shape. -/
def flattenIdx : List Nat → List Nat → Nat
  | [], _ => 0
  | _ :: rest, idx => idx.headD 0 * rest.prod + flattenIdx rest idx.tail

/-- Modelled from the spec: the fused reshape–permute–reshape primitive
(crate `qudit_core`, a stated black box): data reinterpreted as a tensor of
`shape`, legs permuted so that output leg `k` is input leg `perm[k]`, then
flattened back. -/
def frprData (shape perm : List Nat) (data : List Int) : List Int :=
  let outShape := permuteIdx perm shape 0
  (List.range outShape.prod).map fun i =>
    let outIdx := unflattenIdx outShape i
    let inIdx := (List.range shape.length).map fun j =>
      match perm.indexOf? j with
      | some k => outIdx.getD k 0
      | none => 0
    data.getD (flattenIdx shape inIdx) 0

/-- Embedding of the identity warm-up of `QVM::first_run` (src/qvm.rs): ones
written on the diagonal of a buffer (entries off the diagonal keep their
values). -/
def setDiagOnes (m : Mat) : Mat :=
  (List.range (matRows m)).map fun i => (m.getD i []).set i 1

/-- Embedding of `DifferentiationLevel` (crate `qudit_expr`), as the spec's
three-level ladder. -/
inductive DiffLvl where
  | NoDiff
  | Gradient
  | Hessian
deriving DecidableEq, Repr

/-- Embedding of `DifferentiationLevel::gradient_capable`. -/
def DiffLvl.gradient_capable : DiffLvl → Bool
  | .NoDiff => false
  | _ => true

/-- Embedding of `DifferentiationLevel::hessian_capable`. -/
def DiffLvl.hessian_capable : DiffLvl → Bool
  | .Hessian => true
  | _ => false

/-- Embedding of the QVM state (src/qvm.rs): the first-run flag, per-buffer
arena memory, the static and dynamic programs and the differentiation level.
The instructions are kept at the generalized level: specialization only binds
strides and kernel pointers. -/
structure QVMState where
  first_run : Bool
  memory : List Mat
  static_instructions : List GInst
  dynamic_instructions : List GInst
  diff_lvl : DiffLvl

/-- Embedding of `QVM::new`: zeroed arena (one zero matrix per buffer), flag
set, programs taken from the bytecode. -/
def qvmNew (bc : Bytecode) (lvl : DiffLvl) : QVMState :=
  ⟨true, bc.matrix_buffers.map (fun b => zeroMat b.nrows b.ncols),
    bc.static_code, bc.dynamic_code, lvl⟩

/-- Modelled from the spec: a kernel registry — for each leaf expression, the
matrix its write kernel materializes from its parameter slice. -/
def Kernel : Type := UnitaryExpr → List Int → Mat

/-- Embedding of the unitary-level execution of one instruction
(`SpecializedInstruction::execute_unitary`, src/bytecode/specialized.rs and
src/bytecode/instructions/): `Write` runs the kernel on the parameter slice
starting at its offset, `Matmul(a, b, c)` stores `A · B` in `c`,
`Kron` stores `A ⊗ B`, `FRPR` stores the reshape–permute–reshape of its
source, shaped to the destination buffer. -/
def execGInst (K : Kernel) (params : List Int) (mem : List Mat) : GInst → List Mat
  | .Write e off d => mem.set d (K e ((params.drop off).take e.num_params))
  | .Matmul a b c => mem.set c (matMul (mem.getD a default) (mem.getD b default))
  | .Kron a b c => mem.set c (kronProd (mem.getD a default) (mem.getD b default))
  | .FRPR s sh pm d =>
      mem.set d (flatToMat (matRows (mem.getD d default)) (matCols (mem.getD d default))
        (frprData sh pm (matFlat (mem.getD s default))))

/-- Helper: execute a list of instructions in program order. -/
def execList (K : Kernel) (params : List Int) (insts : List GInst) (mem : List Mat) :
    List Mat :=
  insts.foldl (fun m i => execGInst K params m i) mem

/-- Helper: the destination buffers of the `Write` instructions of a program,
in program order. -/
def writeDests (insts : List GInst) : List Nat :=
  insts.filterMap fun i =>
    match i with
    | .Write _ _ d => some d
    | _ => none

/-- Helper: write ones on the diagonal of every `Write` destination of a
program (the warm-up loops of `QVM::first_run`). -/
def initWriteDests (insts : List GInst) (mem : List Mat) : List Mat :=
  (writeDests insts).foldl (fun m d => m.set d (setDiagOnes (m.getD d default))) mem

/-- Observable events of the first-run prelude: a buffer getting its identity
warm-up, or a static instruction being executed. -/
inductive QVMEvent where
  | InitBuf (buffer : Nat)
  | ExecStatic (inst : GInst)
deriving DecidableEq, Repr

/-- Helper: the event trace `QVM::first_run` produces when it actually runs:
one warm-up event per static `Write` destination, then per dynamic `Write`
destination, then one execution event per static instruction. -/
def preludeLog (st : QVMState) : List QVMEvent :=
  (writeDests st.static_instructions).map QVMEvent.InitBuf
    ++ (writeDests st.dynamic_instructions).map QVMEvent.InitBuf
    ++ st.static_instructions.map QVMEvent.ExecStatic

/-- Embedding of `QVM::first_run` (src/qvm.rs): when the flag is set, warm up
every `Write` destination (static program first, then dynamic), execute every
static instruction once with an empty parameter slice, and clear the flag;
otherwise do nothing.  Returns the state together with the produced events. -/
def first_run (K : Kernel) (st : QVMState) : QVMState × List QVMEvent :=
  if st.first_run then
    let mem₁ := initWriteDests st.static_instructions st.memory
    let mem₂ := initWriteDests st.dynamic_instructions mem₁
    let mem₃ := execList K [] st.static_instructions mem₂
    ({ st with first_run := false, memory := mem₃ }, preludeLog st)
  else (st, [])

/-- Helper: the output buffer of an instruction (the buffer
`QVM::get_unitary` returns a view of for the last dynamic instruction). -/
def GInst.out_buffer : GInst → Nat
  | .Write _ _ d => d
  | .Matmul _ _ c => c
  | .Kron _ _ c => c
  | .FRPR _ _ _ d => d

/-- Embedding of `QVM::get_unitary` (src/qvm.rs): run the prelude lazily,
execute every dynamic instruction, then index
`dynamic_instructions[len() - 1]` and return a view of its output buffer;
with an empty dynamic program the index underflows and the call panics
(`none`). -/
def get_unitary (K : Kernel) (params : List Int) (st : QVMState) :
    Option (Mat × QVMState) :=
  let st₁ := (first_run K st).1
  let mem := execList K params st₁.dynamic_instructions st₁.memory
  match st₁.dynamic_instructions.getLast? with
  | none => none
  | some inst => some (mem.getD inst.out_buffer default, { st₁ with memory := mem })

/-- The five evaluation entry points of the QVM (src/qvm.rs). -/
inductive CallKind where
  | GetUnitary
  | GetUnitaryAndGradient
  | WriteUnitary
  | WriteUnitaryAndGradient
  | WriteUnitaryGradientAndHessian
deriving DecidableEq, Repr

/-- Embedding of the capability check each entry point performs before
anything else: the gradient entry points require a gradient-capable level,
the Hessian entry point a Hessian-capable level. -/
def call_allowed (c : CallKind) (lvl : DiffLvl) : Bool :=
  match c with
  | .GetUnitary => true
  | .WriteUnitary => true
  | .GetUnitaryAndGradient => lvl.gradient_capable
  | .WriteUnitaryAndGradient => lvl.gradient_capable
  | .WriteUnitaryGradientAndHessian => lvl.hessian_capable

/-- Helper: whether an instruction is a `Write`. -/
def GInst.isWrite : GInst → Bool
  | .Write _ _ _ => true
  | _ => false

/-- Embedding of one evaluation call (src/qvm.rs): the capability check (a
panic, `none`, happens before the prelude), then the lazy prelude, then the
dynamic program — the `get_*` calls execute all of it against the arena, the
`write_*` calls execute all but the last instruction against the arena and
materialize the last one into caller-provided views (outside the arena model);
an empty dynamic program panics at the `len() - 1` index.
`write_unitary_gradient_and_hessian` panics when the dynamic program contains
a `Write` instruction: `WriteStruct::execute_unitary_gradient_and_hessian`
and its `_into` variant are `todo!()`
(src/bytecode/instructions/write.rs lines 60 and 115), so a `Write` in the
prefix or in last position aborts the call after the prelude.  Gradient and
Hessian slab values ride along the same instruction sequence and are not
modelled separately (the Matmul/Kron/FRPR Hessian bodies are implemented).
Returns the new state and the prelude events of the call. -/
def doCall (K : Kernel) (c : CallKind) (params : List Int) (st : QVMState) :
    Option (QVMState × List QVMEvent) :=
  if ¬ call_allowed c st.diff_lvl then none
  else
    let (st₁, ev) := first_run K st
    match st₁.dynamic_instructions.getLast? with
    | none => none
    | some _ =>
        if c = CallKind.WriteUnitaryGradientAndHessian
            ∧ st₁.dynamic_instructions.any GInst.isWrite then none
        else
          let insts := match c with
            | .GetUnitary => st₁.dynamic_instructions
            | .GetUnitaryAndGradient => st₁.dynamic_instructions
            | _ => st₁.dynamic_instructions.dropLast
          some ({ st₁ with memory := execList K params insts st₁.memory }, ev)

/-- Helper: run a sequence of evaluation calls, collecting each call's prelude
events; a panicking call aborts the sequence (`none`). -/
def runCalls (K : Kernel) : List (CallKind × List Int) → QVMState →
    Option (QVMState × List (List QVMEvent))
  | [], st => some (st, [])
  | (c, ps) :: rest, st => do
      let (st₁, ev) ← doCall K c ps st
      let (stF, evs) ← runCalls K rest st₁
      some (stF, ev :: evs)

/-- Embedding of `SizedMatrixBuffer` (src/bytecode/buffer.rs): a matrix buffer
promoted with an absolute arena offset and strides. -/
structure SizedMatrixBuffer where
  offset : Nat
  nrows : Nat
  ncols : Nat
  col_stride : Nat
  mat_stride : Nat
  num_params : Nat
deriving DecidableEq, Repr, Inhabited

/-- Embedding of the buffer-layout loop of `Bytecode::specialize`
(src/bytecode/bytecode.rs), parameterized by the platform stride calculators
`calc_col_stride` and `calc_mat_stride` (black-box subroutines of crate
`qudit_core`): each buffer is placed at the running offset, which then
advances by `mat_stride`, plus `mat_stride · num_params` when the level is
gradient-capable, plus `mat_stride · (num_params·(num_params+1)) / 2` when it
is Hessian-capable.  Returns the sized buffers and the final offset (the
memory size). -/
def specialize_layout (lvl : DiffLvl) (css : Nat → Nat → Nat)
    (mss : Nat → Nat → Nat → Nat) :
    List MatrixBuffer → Nat → List SizedMatrixBuffer × Nat
  | [], offset => ([], offset)
  | b :: rest, offset =>
      let cs := css b.nrows b.ncols
      let ms := mss b.nrows b.ncols cs
      let offset₁ := offset + ms
        + (if lvl.gradient_capable then ms * b.num_params else 0)
        + (if lvl.hessian_capable then ms * (b.num_params * (b.num_params + 1)) / 2
           else 0)
      let (srest, final) := specialize_layout lvl css mss rest offset₁
      (⟨offset, b.nrows, b.ncols, cs, ms, b.num_params⟩ :: srest, final)

/-- The number of matrices a buffer materializes at a differentiation level:
the value matrix, the gradient slab, and the packed upper-triangular Hessian
slab. -/
def mat_count (lvl : DiffLvl) (np : Nat) : Nat :=
  1 + (if lvl.gradient_capable then np else 0)
    + (if lvl.hessian_capable then np * (np + 1) / 2 else 0)

/-- The arena footprint of one buffer: `mat_stride` times its matrix count. -/
def footprint (lvl : DiffLvl) (ms np : Nat) : Nat :=
  ms * mat_count lvl np

/-- The footprint of a buffer under given stride calculators. -/
def buf_footprint (lvl : DiffLvl) (css : Nat → Nat → Nat)
    (mss : Nat → Nat → Nat → Nat) (b : MatrixBuffer) : Nat :=
  footprint lvl (mss b.nrows b.ncols (css b.nrows b.ncols)) b.num_params

/-- The total footprint of a buffer list. -/
def total_footprint (lvl : DiffLvl) (css : Nat → Nat → Nat)
    (mss : Nat → Nat → Nat → Nat) (bufs : List MatrixBuffer) : Nat :=
  (bufs.map (buf_footprint lvl css mss)).sum

/-- Helper: whether a tree's root is a leaf. -/
def ExpressionTree.isLeaf : ExpressionTree → Bool
  | .Leaf _ => true
  | _ => false

/-- The sum of the parameter counts of the leaves of a tree (the value spec §8
equates with `num_params`); leaves below a `Constant` node still count. -/
def ExpressionTree.leaf_param_sum : ExpressionTree → Nat
  | .Constant c => c.leaf_param_sum
  | .Contract l r _ _ _ _ _ _ => l.leaf_param_sum + r.leaf_param_sum
  | .Identity _ => 0
  | .Kron l r => l.leaf_param_sum + r.leaf_param_sum
  | .Leaf e => e.num_params
  | .Mul l r => l.leaf_param_sum + r.leaf_param_sum
  | .Perm c _ => c.leaf_param_sum

/-- The data-model invariant of spec §3 for `Constant` nodes: every `Constant`
node's child has zero parameters. -/
def ExpressionTree.constants_valid : ExpressionTree → Bool
  | .Constant c => c.num_params == 0 && c.constants_valid
  | .Contract l r _ _ _ _ _ _ => l.constants_valid && r.constants_valid
  | .Identity _ => true
  | .Kron l r => l.constants_valid && r.constants_valid
  | .Leaf _ => true
  | .Mul l r => l.constants_valid && r.constants_valid
  | .Perm c _ => c.constants_valid

/-- The number of `Constant` wrappers at the root of a tree. -/
def ExpressionTree.const_height : ExpressionTree → Nat
  | .Constant c => c.const_height + 1
  | _ => 0

/-- Whether a tree's root is a `Constant` node whose child is again a
`Constant` node. -/
def ExpressionTree.isDoubleConstant : ExpressionTree → Bool
  | .Constant (.Constant _) => true
  | _ => false

/-- Helper: project the static-execution events of a QVM event trace. -/
def execStaticOf : QVMEvent → Option GInst
  | .ExecStatic i => some i
  | .InitBuf _ => none

/-- Example leaf expression: one qubit gate with no parameters. -/
def gP0 : UnitaryExpr := ⟨"g0", [2], 0⟩

/-- Example leaf expression: one qubit gate with one parameter. -/
def gP1 : UnitaryExpr := ⟨"g1", [2], 1⟩

/-- Example leaf expression: one qubit gate with two parameters. -/
def gP2 : UnitaryExpr := ⟨"g2", [2], 2⟩

/-- Example kernel registry: every kernel writes the 1×1 matrix `[[2]]`. -/
def kernelTwo : Kernel := fun _ _ => [[2]]

/-- Example bytecode with a chain of two identity FRPRs feeding a matmul: the
program computes `b0 ← kernel`, `b1 ← b0`, `b2 ← b1`, `b3 ← b2 · b2`
(src/bytecode/optimizer.rs removes both FRPRs on it). -/
def frprChainProg : Bytecode :=
  ⟨[], [],
   [.Write gP0 0 0, .FRPR 0 [1, 1] [0, 1] 1, .FRPR 1 [1, 1] [0, 1] 2, .Matmul 2 2 3],
   [⟨1, 1, 0⟩, ⟨1, 1, 0⟩, ⟨1, 1, 0⟩, ⟨1, 1, 0⟩]⟩

/-- Example bytecode with one static and one dynamic write (used to exercise
the first-run prelude). -/
def preludeDemoProg : Bytecode :=
  ⟨[gP0, gP1], [.Write gP0 0 0], [.Write gP1 0 1], [⟨2, 2, 0⟩, ⟨2, 2, 1⟩]⟩

/-- The arena offset `Bytecode::specialize` assigns to buffer `i` when laying
the buffers out from offset 0. -/
def layout_offset (lvl : DiffLvl) (css : Nat → Nat → Nat)
    (mss : Nat → Nat → Nat → Nat) (bufs : List MatrixBuffer) (i : Nat) : Nat :=
  ((specialize_layout lvl css mss bufs 0).1.getD i default).offset

/-- Membership of an arena address in the footprint region of buffer `i`. -/
def in_buffer_region (lvl : DiffLvl) (css : Nat → Nat → Nat)
    (mss : Nat → Nat → Nat → Nat) (bufs : List MatrixBuffer) (i x : Nat) : Prop :=
  layout_offset lvl css mss bufs i ≤ x
    ∧ x < layout_offset lvl css mss bufs i
        + buf_footprint lvl css mss (bufs.getD i default)

/-- Inversion for `mul_new`: success yields exactly the `Mul` node. -/
theorem mul_new_eq_some {l r u : ExpressionTree} (h : mul_new l r = some u) :
    u = .Mul l r := by
  unfold mul_new at h
  split at h <;> simp_all

/-- Inversion for `perm_new`: success yields exactly the `Perm` node. -/
theorem perm_new_eq_some {c : ExpressionTree} {p : QPerm} {u : ExpressionTree}
    (h : perm_new c p = some u) : u = .Perm c p := by
  unfold perm_new at h
  split at h <;> [simp_all; skip]
  split at h <;> simp_all

/-- Inversion for `contract_new`: success yields the freshly built `Contract`
node with cleared skip flags and a square output shape. -/
theorem contract_new_eq_some {l r : ExpressionTree} {lq rq : List Nat}
    {u : ExpressionTree} (h : contract_new l r lq rq = some u) :
    u = .Contract l r lq rq (contract_pre_out_perm lq rq)
      ((contract_radices lq rq l.radices r.radices).prod,
        (contract_radices lq rq l.radices r.radices).prod) false false := by
  unfold contract_new at h
  split at h <;> [simp_all; skip]
  split at h <;> simp_all

/-- Leaf fusion preserves the tree's parameter count. -/
theorem fuse_num_params : ∀ {t u : ExpressionTree},
    fuse_common_operations t = some u → u.num_params = t.num_params := by
  intro t
  induction t with
  | Constant c _ =>
      intro u h
      simp only [fuse_common_operations, Option.some_inj] at h
      subst h; rfl
  | Identity rs =>
      intro u h
      simp only [fuse_common_operations, Option.some_inj] at h
      subst h; rfl
  | Leaf e =>
      intro u h
      simp only [fuse_common_operations, Option.some_inj] at h
      subst h; rfl
  | Kron l r ihl ihr =>
      intro u h
      cases hfl : fuse_common_operations l with
      | none => simp [fuse_common_operations, hfl] at h
      | some l' =>
      cases hfr : fuse_common_operations r with
      | none => simp [fuse_common_operations, hfl, hfr] at h
      | some r' =>
      simp only [fuse_common_operations, hfl, hfr, Option.bind_eq_bind, Option.some_bind] at h
      have hl' := ihl hfl
      have hr' := ihr hfr
      cases l' <;> cases r' <;>
        (simp only [Option.some_inj, kron_new] at h; subst h;
         simp only [ExpressionTree.num_params, UnitaryExpr.otimes] at hl' hr' ⊢; omega)
  | Mul l r ihl ihr =>
      intro u h
      cases hfl : fuse_common_operations l with
      | none => simp [fuse_common_operations, hfl] at h
      | some l' =>
      cases hfr : fuse_common_operations r with
      | none => simp [fuse_common_operations, hfl, hfr] at h
      | some r' =>
      simp only [fuse_common_operations, hfl, hfr, Option.bind_eq_bind, Option.some_bind] at h
      have hl' := ihl hfl
      have hr' := ihr hfr
      cases l' <;> cases r' <;>
        first
        | (simp only [Option.some_inj] at h; subst h;
           simp only [ExpressionTree.num_params, UnitaryExpr.dot] at hl' hr' ⊢; omega)
        | (rw [mul_new_eq_some h];
           simp only [ExpressionTree.num_params] at hl' hr' ⊢; omega)
  | Perm c p ihc =>
      intro u h
      cases hfc : fuse_common_operations c with
      | none => simp [fuse_common_operations, hfc] at h
      | some c' =>
      simp only [fuse_common_operations, hfc, Option.bind_eq_bind, Option.some_bind] at h
      rw [perm_new_eq_some h]
      simp [ExpressionTree.num_params, ihc hfc]
  | Contract l r lq rq pop oms sL sR ihl ihr =>
      intro u h
      cases hfl : fuse_common_operations l with
      | none => simp [fuse_common_operations, hfl] at h
      | some l' =>
      cases hfr : fuse_common_operations r with
      | none => simp [fuse_common_operations, hfl, hfr] at h
      | some r' =>
      simp only [fuse_common_operations, hfl, hfr, Option.bind_eq_bind, Option.some_bind] at h
      rw [contract_new_eq_some h]
      simp [ExpressionTree.num_params, ihl hfl, ihr hfr]

/-- The permutation-fusion traversal preserves the tree's parameter count. -/
theorem traverse_fuse_perms_num_params : ∀ (t : ExpressionTree)
    (upd : Option (List Nat × (Nat × Nat))),
    (traverse_fuse_perms upd t).num_params = t.num_params := by
  intro t
  induction t with
  | Constant c ih =>
      intro upd; simp [traverse_fuse_perms, ExpressionTree.num_params]
  | Contract l r lq rq pop oms sL sR ihl ihr =>
      intro upd
      simp [traverse_fuse_perms, ExpressionTree.num_params, ihl, ihr]
  | Identity rs => intro upd; simp [traverse_fuse_perms]
  | Kron l r ihl ihr =>
      intro upd
      simp [traverse_fuse_perms, ExpressionTree.num_params, ihl, ihr]
  | Leaf e => intro upd; simp [traverse_fuse_perms]
  | Mul l r ihl ihr =>
      intro upd
      simp [traverse_fuse_perms, ExpressionTree.num_params, ihl, ihr]
  | Perm c p ihc =>
      intro upd
      simp [traverse_fuse_perms, ExpressionTree.num_params, ihc]

/-- Constant propagation preserves the tree's parameter count. -/
theorem constant_propagation_num_params : ∀ t : ExpressionTree,
    (constant_propagation t).num_params = t.num_params := by
  intro t
  induction t with
  | Constant c _ =>
      unfold constant_propagation
      split <;> simp [ExpressionTree.num_params]
  | Contract l r lq rq pop oms sL sR ihl ihr =>
      unfold constant_propagation
      split
      · simp_all [ExpressionTree.num_params]
      · simp [ExpressionTree.num_params, ihl, ihr]
  | Identity rs =>
      unfold constant_propagation
      split <;> simp [ExpressionTree.num_params]
  | Kron l r ihl ihr =>
      unfold constant_propagation
      split
      · simp_all [ExpressionTree.num_params]
      · simp [ExpressionTree.num_params, ihl, ihr]
  | Leaf e =>
      unfold constant_propagation
      split <;> simp_all [ExpressionTree.num_params]
  | Mul l r ihl ihr =>
      unfold constant_propagation
      split
      · simp_all [ExpressionTree.num_params]
      · simp [ExpressionTree.num_params, ihl, ihr]
  | Perm c p ihc =>
      unfold constant_propagation
      split
      · simp_all [ExpressionTree.num_params]
      · simp [ExpressionTree.num_params, ihc]

/-- Unfolding of `optimize` success: the fused tree exists and the result is
constant propagation after permutation fusion. -/
theorem optimize_eq_some {t u : ExpressionTree} (h : optimize t = some u) :
    ∃ t₁, fuse_common_operations t = some t₁
      ∧ u = constant_propagation (traverse_fuse_perms none t₁) := by
  simp only [optimize, Option.map_eq_some'] at h
  obtain ⟨t₁, h₁, h₂⟩ := h
  exact ⟨t₁, h₁, h₂.symm⟩

/-- The optimizer preserves the tree's parameter count. -/
theorem optimize_num_params {t u : ExpressionTree} (h : optimize t = some u) :
    u.num_params = t.num_params := by
  obtain ⟨t₁, h₁, h₂⟩ := optimize_eq_some h
  rw [h₂, constant_propagation_num_params, traverse_fuse_perms_num_params]
  exact fuse_num_params h₁

/-- The permutation-fusion traversal preserves the number of `Constant`
wrappers at the root. -/
theorem traverse_fuse_perms_const_height : ∀ (t : ExpressionTree)
    (upd : Option (List Nat × (Nat × Nat))),
    (traverse_fuse_perms upd t).const_height = t.const_height := by
  intro t
  induction t with
  | Constant c ih =>
      intro upd
      simp [traverse_fuse_perms, ExpressionTree.const_height, ih]
  | Contract l r lq rq pop oms sL sR ihl ihr =>
      intro upd; simp [traverse_fuse_perms, ExpressionTree.const_height]
  | Identity rs => intro upd; simp [traverse_fuse_perms, ExpressionTree.const_height]
  | Kron l r ihl ihr => intro upd; simp [traverse_fuse_perms, ExpressionTree.const_height]
  | Leaf e => intro upd; simp [traverse_fuse_perms, ExpressionTree.const_height]
  | Mul l r ihl ihr => intro upd; simp [traverse_fuse_perms, ExpressionTree.const_height]
  | Perm c p ihc => intro upd; simp [traverse_fuse_perms, ExpressionTree.const_height]

/-- Constant propagation on a zero-parameter tree wraps the whole tree. -/
theorem constant_propagation_of_zero {t : ExpressionTree} (h : t.num_params = 0) :
    constant_propagation t = .Constant t := by
  unfold constant_propagation
  rw [if_pos h]

/-- Leaf fusion returns a `Constant` node unchanged. -/
theorem fuse_constant_eq (c : ExpressionTree) :
    fuse_common_operations (.Constant c) = some (.Constant c) :=
  rfl

/-- C10: `TreeOptimizer::optimize` is not idempotent on zero-parameter trees:
`constant_propagation` wraps any zero-parameter tree in a fresh `Constant`
node even when its root is already `Constant`, so a second `optimize` yields a
doubly wrapped `Constant (Constant ·)` root that differs from the first
result. -/
theorem c10_optimize_not_idempotent (t u v : ExpressionTree)
    (h0 : t.num_params = 0) (h1 : optimize t = some u) (h2 : optimize u = some v) :
    v.isDoubleConstant = true ∧ v ≠ u := by
  obtain ⟨t₁, hf, hu⟩ := optimize_eq_some h1
  have hnp : (traverse_fuse_perms none t₁).num_params = 0 := by
    rw [traverse_fuse_perms_num_params, fuse_num_params hf, h0]
  have hu' : u = .Constant (traverse_fuse_perms none t₁) := by
    rw [hu, constant_propagation_of_zero hnp]
  subst hu'
  obtain ⟨u₁, hfu, hv⟩ := optimize_eq_some h2
  rw [fuse_constant_eq, Option.some_inj] at hfu
  subst hfu
  have hv' : v = .Constant (.Constant
      (traverse_fuse_perms none (traverse_fuse_perms none t₁))) := by
    rw [hv]
    show constant_propagation
      (traverse_fuse_perms none (.Constant (traverse_fuse_perms none t₁))) = _
    rw [show traverse_fuse_perms none (ExpressionTree.Constant
          (traverse_fuse_perms none t₁))
        = .Constant (traverse_fuse_perms none (traverse_fuse_perms none t₁)) from rfl]
    exact constant_propagation_of_zero rfl
  subst hv'
  refine ⟨rfl, ?_⟩
  intro heq
  have hinj : ExpressionTree.Constant
      (traverse_fuse_perms none (traverse_fuse_perms none t₁))
      = traverse_fuse_perms none t₁ := by
    injection heq
  have hh := congrArg ExpressionTree.const_height hinj
  rw [show (ExpressionTree.Constant
      (traverse_fuse_perms none (traverse_fuse_perms none t₁))).const_height
      = (traverse_fuse_perms none (traverse_fuse_perms none t₁)).const_height + 1
      from rfl, traverse_fuse_perms_const_height] at hh
  omega

/-- Witness for C10 at the concrete zero-parameter leaf `gP0`. -/
theorem c10_optimize_not_idempotent_witness :
    (ExpressionTree.Constant (.Constant (.Leaf gP0))).isDoubleConstant = true
      ∧ ExpressionTree.Constant (.Constant (.Leaf gP0))
          ≠ .Constant (.Leaf gP0) :=
  c10_optimize_not_idempotent (.Leaf gP0) (.Constant (.Leaf gP0))
    (.Constant (.Constant (.Leaf gP0))) rfl rfl rfl

/-- A tree whose `Constant` nodes all wrap zero-parameter children has
`num_params` equal to the sum of its leaves' parameter counts. -/
theorem constants_valid_num_params : ∀ t : ExpressionTree,
    t.constants_valid = true → t.num_params = t.leaf_param_sum := by
  intro t
  induction t with
  | Constant c ih =>
      intro h
      simp only [ExpressionTree.constants_valid, Bool.and_eq_true, beq_iff_eq] at h
      have := ih h.2
      simp only [ExpressionTree.num_params, ExpressionTree.leaf_param_sum]
      omega
  | Contract l r lq rq pop oms sL sR ihl ihr =>
      intro h
      simp only [ExpressionTree.constants_valid, Bool.and_eq_true] at h
      simp [ExpressionTree.num_params, ExpressionTree.leaf_param_sum, ihl h.1, ihr h.2]
  | Identity rs => intro h; rfl
  | Kron l r ihl ihr =>
      intro h
      simp only [ExpressionTree.constants_valid, Bool.and_eq_true] at h
      simp [ExpressionTree.num_params, ExpressionTree.leaf_param_sum, ihl h.1, ihr h.2]
  | Leaf e => intro h; rfl
  | Mul l r ihl ihr =>
      intro h
      simp only [ExpressionTree.constants_valid, Bool.and_eq_true] at h
      simp [ExpressionTree.num_params, ExpressionTree.leaf_param_sum, ihl h.1, ihr h.2]
  | Perm c p ihc =>
      intro h
      simp only [ExpressionTree.constants_valid] at h
      simp [ExpressionTree.num_params, ExpressionTree.leaf_param_sum, ihc h]

/-- C3 counterexample: a `Constant` node over a parameterized leaf reports
zero parameters while its leaf-parameter sum is one, so `num_params` is not
the sum over leaves for every tree. -/
theorem c3_params_additive_counterexample :
    (ExpressionTree.Constant (.Leaf gP1)).num_params
      ≠ (ExpressionTree.Constant (.Leaf gP1)).leaf_param_sum := by
  decide

/-- C3 (amended): for every tree `T` whose `Constant` nodes wrap
zero-parameter children, `num_params` equals the sum of the parameter counts
of the leaves; and — independently, for every tree `T'`, valid or not —
`TreeOptimizer::optimize` preserves `num_params` whenever it does not
panic. -/
theorem c3_params_additive_amended (T T' u : ExpressionTree)
    (hval : T.constants_valid = true) (hopt : optimize T' = some u) :
    T.num_params = T.leaf_param_sum ∧ u.num_params = T'.num_params :=
  ⟨constants_valid_num_params T hval, optimize_num_params hopt⟩

/-- Witness for C3: additivity at the one-parameter leaf `gP1`, and
optimize-invariance at the invariant-violating tree `Constant (Leaf gP1)`
itself. -/
theorem c3_params_additive_witness :
    (ExpressionTree.Leaf gP1).num_params = (ExpressionTree.Leaf gP1).leaf_param_sum
      ∧ (ExpressionTree.Constant (.Constant (.Leaf gP1))).num_params
          = (ExpressionTree.Constant (.Leaf gP1)).num_params :=
  c3_params_additive_amended (.Leaf gP1) (.Constant (.Leaf gP1))
    (.Constant (.Constant (.Leaf gP1))) (by decide) (by decide)

/-- C4 counterexample: leaf fusion does not recurse into the children of a
`Constant` node — a fusable `Kron` of two leaves under `Constant` is returned
untouched, not fused. -/
theorem c4_leaf_fusion_counterexample :
    fuse_common_operations (.Constant (.Kron (.Leaf gP1) (.Leaf gP2)))
        = some (.Constant (.Kron (.Leaf gP1) (.Leaf gP2)))
      ∧ ExpressionTree.Constant (.Kron (.Leaf gP1) (.Leaf gP2))
          ≠ .Constant (.Leaf (gP1.otimes gP2)) := by
  exact ⟨rfl, by decide⟩

/-- C4 (amended): the leaf-fusion pass is a post-order rewrite that replaces a
`Kron` of two leaves by the single leaf `a ⊗ b` and a `Mul` of two leaves by
the single leaf `b · a` (right times left), performs no fusion when either
fused child is not a leaf (the node is rebuilt through its constructor), and
recurses into the children of `Perm` and `Contract` nodes — but it leaves
`Constant` nodes, children included, unchanged. -/
theorem c4_leaf_fusion_amended (a b : UnitaryExpr) (t l r c l' r' c' : ExpressionTree)
    (p : QPerm) (lq rq pop : List Nat) (oms : Nat × Nat) (sL sR : Bool)
    (hl : fuse_common_operations l = some l')
    (hr : fuse_common_operations r = some r')
    (hc : fuse_common_operations c = some c') :
    fuse_common_operations (.Kron (.Leaf a) (.Leaf b)) = some (.Leaf (a.otimes b))
      ∧ fuse_common_operations (.Mul (.Leaf a) (.Leaf b)) = some (.Leaf (b.dot a))
      ∧ (l'.isLeaf = false ∨ r'.isLeaf = false →
          fuse_common_operations (.Kron l r) = some (kron_new l' r'))
      ∧ (l'.isLeaf = false ∨ r'.isLeaf = false →
          fuse_common_operations (.Mul l r) = mul_new l' r')
      ∧ fuse_common_operations (.Perm c p) = perm_new c' p
      ∧ fuse_common_operations (.Contract l r lq rq pop oms sL sR)
          = contract_new l' r' lq rq
      ∧ fuse_common_operations (.Constant t) = some (.Constant t) := by
  refine ⟨rfl, rfl, ?_, ?_, ?_, ?_, rfl⟩
  · intro hnl
    simp only [fuse_common_operations, hl, hr, Option.bind_eq_bind, Option.some_bind]
    cases l' <;> cases r' <;>
      first
      | rfl
      | simp [ExpressionTree.isLeaf] at hnl
  · intro hnl
    simp only [fuse_common_operations, hl, hr, Option.bind_eq_bind, Option.some_bind]
    cases l' <;> cases r' <;>
      first
      | rfl
      | simp [ExpressionTree.isLeaf] at hnl
  · simp only [fuse_common_operations, hc, Option.bind_eq_bind, Option.some_bind]
  · simp only [fuse_common_operations, hl, hr, Option.bind_eq_bind, Option.some_bind]

/-- Witness for C4 at concrete inputs: two fusable leaves, and a `Kron` whose
left child is not a leaf and is rebuilt unfused. -/
theorem c4_leaf_fusion_witness :
    fuse_common_operations (.Kron (.Leaf gP1) (.Leaf gP2))
        = some (.Leaf (gP1.otimes gP2))
      ∧ fuse_common_operations (.Kron (.Constant (.Leaf gP1)) (.Leaf gP2))
          = some (kron_new (.Constant (.Leaf gP1)) (.Leaf gP2)) := by
  have h := c4_leaf_fusion_amended gP1 gP2 (.Leaf gP1) (.Constant (.Leaf gP1))
    (.Leaf gP2) (.Leaf gP1) (.Constant (.Leaf gP1)) (.Leaf gP2) (.Leaf gP1)
    ⟨[], []⟩ [] [] [] (0, 0) false false rfl rfl rfl
  exact ⟨h.1, h.2.2.1 (Or.inl rfl)⟩

/-- C5: for every `Mul(l, r)` node the generator first emits the code of `l`
(buffer `a`), then the code of `r` (buffer `b`), then a fresh buffer `c` of
the node's dimension and parameter count followed by the instruction
`Matmul(b, a, c)` — the tree's left child is the right matmul operand; and a
`Matmul(b, a, c)` instruction stores `B · A` (right times left) in `c`. -/
theorem c5_mul_generates_swapped_matmul (l r : ExpressionTree)
    (s s₁ s₂ : GenState) (a b : Nat)
    (hl : parse l s = some (a, s₁)) (hr : parse r s₁ = some (b, s₂)) :
    parse (.Mul l r) s = some (s₂.matrix_buffers.length, { s₂ with
        matrix_buffers := s₂.matrix_buffers ++
          [⟨(ExpressionTree.Mul l r).dimension, (ExpressionTree.Mul l r).dimension,
            (ExpressionTree.Mul l r).num_params⟩],
        dynamic_code := s₂.dynamic_code ++ [.Matmul b a s₂.matrix_buffers.length] })
      ∧ ∀ (K : Kernel) (ps : List Int) (mem : List Mat),
          execGInst K ps mem (.Matmul b a s₂.matrix_buffers.length)
            = mem.set s₂.matrix_buffers.length
                (matMul (mem.getD b default) (mem.getD a default)) := by
  refine ⟨?_, fun K ps mem => rfl⟩
  simp only [parse, hl, hr, Option.bind_eq_bind, Option.some_bind]

/-- Witness for C5: generating `Mul(Leaf gP1, Leaf gP2)` from the empty
state emits the two writes and then `Matmul 1 0 2` into the fresh buffer 2. -/
theorem c5_mul_generates_swapped_matmul_witness :
    parse (.Mul (.Leaf gP1) (.Leaf gP2)) genEmpty
      = some (2, ⟨[gP1, gP2], [], [.Write gP1 0 0, .Write gP2 1 1, .Matmul 1 0 2],
          [⟨2, 2, 1⟩, ⟨2, 2, 2⟩, ⟨2, 2, 3⟩], 3, []⟩) := by
  have h := (c5_mul_generates_swapped_matmul (.Leaf gP1) (.Leaf gP2) genEmpty
    ⟨[gP1], [], [.Write gP1 0 0], [⟨2, 2, 1⟩], 1, []⟩
    ⟨[gP1, gP2], [], [.Write gP1 0 0, .Write gP2 1 1], [⟨2, 2, 1⟩, ⟨2, 2, 2⟩], 3, []⟩
    0 1 rfl rfl).1
  exact h

/-- C9: `ConstantNode::new` accepts any child without checking its parameter
count, the resulting node reports zero parameters even over a child with
nonzero parameters, and the pipeline does not reject such a node — the
bytecode generator compiles it. -/
theorem c9_constant_new_unchecked (t : ExpressionTree) :
    constant_new t = .Constant t
      ∧ (constant_new t).num_params = 0
      ∧ (ExpressionTree.Leaf gP1).num_params = 1
      ∧ (constant_new (.Leaf gP1)).num_params = 0
      ∧ (parse (constant_new (.Leaf gP1)) genEmpty).isSome = true :=
  ⟨rfl, rfl, rfl, rfl, rfl⟩

/-- C1 (code bug): for the pure-constant circuit `Leaf gP0` the optimizer does
produce an all-`Constant` tree and the compiled dynamic code is empty as the
spec says, but `QVM::get_unitary(&[])` then indexes
`dynamic_instructions[len() - 1]` with `len() = 0` and panics (`none`) instead
of returning the statically evaluated product. -/
theorem c1_pure_constant_get_unitary_panics :
    optimize (.Leaf gP0) = some (.Constant (.Leaf gP0))
      ∧ (optimize_and_compile (.Leaf gP0)).map Bytecode.dynamic_code = some []
      ∧ ((optimize_and_compile (.Leaf gP0)).bind
          (fun bc => get_unitary kernelTwo [] (qvmNew bc .NoDiff))) = none :=
  ⟨rfl, rfl, rfl⟩

/-- C2 (code bug): `remove_identity_frpr` remaps chained identity FRPRs
non-transitively.  On `frprChainProg` it removes both identity FRPRs and
rewrites the final `Matmul` to read buffer 1, which no remaining instruction
writes: the original program outputs `[[4]]` (the kernel value squared) while
the optimized program outputs `[[0]]`, so the pass is not
semantics-preserving for every bytecode program. -/
theorem c2_remove_identity_frpr_changes_output :
    (remove_identity_frpr frprChainProg).dynamic_code
        = [.Write gP0 0 0, .Matmul 1 1 3]
      ∧ (get_unitary kernelTwo [] (qvmNew frprChainProg .NoDiff)).map Prod.fst
          = some [[4]]
      ∧ (get_unitary kernelTwo []
            (qvmNew (remove_identity_frpr frprChainProg) .NoDiff)).map Prod.fst
          = some [[0]]
      ∧ (some [[(4 : Int)]] : Option Mat) ≠ some [[0]] := by
  refine ⟨rfl, rfl, rfl, by decide⟩

/-- Membership in the insertion step of the model sort. -/
theorem mem_insertAsc {x a : Nat} : ∀ {l : List Nat},
    x ∈ insertAsc a l ↔ x = a ∨ x ∈ l := by
  intro l
  induction l with
  | nil => simp [insertAsc]
  | cons b rest ih =>
      unfold insertAsc
      split
      · simp
      · simp only [List.mem_cons, ih]
        tauto

/-- Membership in the model sort is membership in the input. -/
theorem mem_sortAsc {x : Nat} : ∀ {l : List Nat}, x ∈ sortAsc l ↔ x ∈ l := by
  intro l
  induction l with
  | nil => simp [sortAsc]
  | cons a rest ih =>
      show x ∈ insertAsc a (sortAsc rest) ↔ _
      rw [mem_insertAsc]
      simp [ih]

/-- Membership in the sorted union of qudit labels. -/
theorem mem_all_qudits {q : Nat} {lq rq : List Nat} :
    q ∈ all_qudits lq rq ↔ q ∈ lq ∨ q ∈ rq := by
  simp [all_qudits, mem_sortAsc]

/-- Membership in the contracting-qudit set. -/
theorem mem_contracting_qudits {q : Nat} {lq rq : List Nat} :
    q ∈ contracting_qudits lq rq ↔ q ∈ lq ∧ q ∈ rq := by
  simp [contracting_qudits, List.mem_filter]

/-- C6: `ContractNode::new`, with operand qudit lists whose lengths match the
operands' qudit counts, panics exactly when the two lists share no qudit
label, or some shared label has a different radix in the left operand
(looked up at its first position in `left_qudits`) than in the right operand
(first position in `right_qudits`). -/
theorem c6_contract_new_panic_iff (l r : ExpressionTree) (lq rq : List Nat)
    (hl : lq.length = l.radices.length) (hr : rq.length = r.radices.length) :
    contract_new l r lq rq = none ↔
      ((∀ q ∈ lq, q ∉ rq) ∨
        ∃ q, q ∈ lq ∧ q ∈ rq ∧
          l.radices.getD (lq.indexOf q) 0 ≠ r.radices.getD (rq.indexOf q) 0) := by
  unfold contract_new
  by_cases h1 : (contracting_qudits lq rq).length = 0
  · rw [if_pos h1]
    refine iff_of_true rfl (Or.inl ?_)
    intro q hq hqr
    have hmem : q ∈ contracting_qudits lq rq := mem_contracting_qudits.mpr ⟨hq, hqr⟩
    rw [List.length_eq_zero] at h1
    rw [h1] at hmem
    exact absurd hmem (List.not_mem_nil q)
  · rw [if_neg h1]
    by_cases h2 : ((all_qudits lq rq).all fun q =>
        if (contracting_qudits lq rq).contains q
        then l.radices.getD (lq.indexOf q) 0 == r.radices.getD (rq.indexOf q) 0
        else true) = true
    · rw [if_neg (not_not_intro h2)]
      refine iff_of_false (by simp) ?_
      intro hRHS
      rcases hRHS with hno | ⟨q, hql, hqr, hrad⟩
      · apply h1
        rw [List.length_eq_zero]
        simp only [contracting_qudits]
        rw [List.filter_eq_nil_iff]
        intro a ha
        simp only [List.mem_dedup] at ha
        simpa using hno a ha
      · rw [List.all_eq_true] at h2
        have hq_all : q ∈ all_qudits lq rq := mem_all_qudits.mpr (Or.inl hql)
        have hthis := h2 _ hq_all
        rw [if_pos (List.elem_iff.mpr (mem_contracting_qudits.mpr ⟨hql, hqr⟩))] at hthis
        exact hrad (by simpa [beq_iff_eq] using hthis)
    · rw [if_pos h2]
      refine iff_of_true rfl (Or.inr ?_)
      simp only [List.all_eq_true, not_forall] at h2
      obtain ⟨q, hq, hcond⟩ := h2
      by_cases hct : (contracting_qudits lq rq).contains q = true
      · rw [if_pos hct] at hcond
        have hqm := mem_contracting_qudits.mp (List.elem_iff.mp hct)
        exact ⟨q, hqm.1, hqm.2, fun he => hcond (by simpa [beq_iff_eq] using he)⟩
      · rw [if_neg hct] at hcond
        exact absurd rfl hcond

/-- Witness for C6: a two-qudit contraction sharing qudit 1 with matching
radices does not panic, while disjoint qudit lists do. -/
theorem c6_contract_new_panic_iff_witness :
    (contract_new (.Leaf ⟨"a2", [2, 3], 0⟩) (.Leaf ⟨"b2", [3, 2], 0⟩) [0, 1] [1, 2]
        = none ↔
      ((∀ q ∈ [0, 1], q ∉ [1, 2]) ∨
        ∃ q, q ∈ [0, 1] ∧ q ∈ [1, 2] ∧
          (ExpressionTree.Leaf ⟨"a2", [2, 3], 0⟩).radices.getD ([0, 1].indexOf q) 0
            ≠ (ExpressionTree.Leaf ⟨"b2", [3, 2], 0⟩).radices.getD ([1, 2].indexOf q) 0)) :=
  c6_contract_new_panic_iff (.Leaf ⟨"a2", [2, 3], 0⟩) (.Leaf ⟨"b2", [3, 2], 0⟩)
    [0, 1] [1, 2] (by decide) (by decide)

/-- A call on a QVM whose first-run flag is cleared produces no prelude
events and only updates memory. -/
theorem doCall_of_not_first_run (K : Kernel) (c : CallKind) (ps : List Int)
    {st : QVMState} (h1 : st.first_run = false)
    (h2 : call_allowed c st.diff_lvl = true)
    (h3 : st.dynamic_instructions ≠ [])
    (h4 : c = CallKind.WriteUnitaryGradientAndHessian →
      st.dynamic_instructions.any GInst.isWrite = false) :
    ∃ m, doCall K c ps st = some ({ st with memory := m }, []) := by
  have hniw : ¬ (c = CallKind.WriteUnitaryGradientAndHessian
      ∧ st.dynamic_instructions.any GInst.isWrite = true) := by
    rintro ⟨hc, hw⟩
    rw [h4 hc] at hw
    exact Bool.false_ne_true hw
  unfold doCall
  rw [if_neg (by simp [h2])]
  unfold first_run
  rw [if_neg (by simp [h1])]
  cases hgl : st.dynamic_instructions.getLast? with
  | none => exact absurd (by rwa [List.getLast?_eq_none_iff] at hgl) h3
  | some i =>
      simp only [hgl]
      rw [if_neg hniw]
      exact ⟨_, rfl⟩

/-- A call on a QVM whose first-run flag is set runs the prelude: it emits
exactly the prelude event trace and clears the flag. -/
theorem doCall_of_first_run (K : Kernel) (c : CallKind) (ps : List Int)
    {st : QVMState} (h1 : st.first_run = true)
    (h2 : call_allowed c st.diff_lvl = true)
    (h3 : st.dynamic_instructions ≠ [])
    (h4 : c = CallKind.WriteUnitaryGradientAndHessian →
      st.dynamic_instructions.any GInst.isWrite = false) :
    ∃ m, doCall K c ps st
      = some ({ st with first_run := false, memory := m }, preludeLog st) := by
  have hniw : ¬ (c = CallKind.WriteUnitaryGradientAndHessian
      ∧ st.dynamic_instructions.any GInst.isWrite = true) := by
    rintro ⟨hc, hw⟩
    rw [h4 hc] at hw
    exact Bool.false_ne_true hw
  unfold doCall
  rw [if_neg (by simp [h2])]
  unfold first_run
  rw [if_pos (by simp [h1])]
  cases hgl : st.dynamic_instructions.getLast? with
  | none => exact absurd (by rwa [List.getLast?_eq_none_iff] at hgl) h3
  | some i =>
      simp only [hgl]
      rw [if_neg hniw]
      exact ⟨_, rfl⟩

/-- After the first-run flag is cleared, a sequence of allowed calls on a
nonempty dynamic program succeeds and produces no prelude events at all. -/
theorem runCalls_after_first (K : Kernel) : ∀ (calls : List (CallKind × List Int))
    (st : QVMState), st.first_run = false → st.dynamic_instructions ≠ [] →
    (∀ x ∈ calls, call_allowed x.1 st.diff_lvl = true) →
    (∀ x ∈ calls, x.1 = CallKind.WriteUnitaryGradientAndHessian →
      st.dynamic_instructions.any GInst.isWrite = false) →
    ∃ stF, runCalls K calls st = some (stF, calls.map (fun _ => ([] : List QVMEvent))) := by
  intro calls
  induction calls with
  | nil => exact fun st _ _ _ _ => ⟨st, rfl⟩
  | cons cp rest ih =>
      intro st h1 h2 h3 h4
      obtain ⟨m, hm⟩ := doCall_of_not_first_run K cp.1 cp.2
        h1 (h3 cp (List.mem_cons_self cp rest)) h2
        (h4 cp (List.mem_cons_self cp rest))
      obtain ⟨stF, hF⟩ := ih { st with memory := m } h1 h2
        (fun x hx => h3 x (List.mem_cons_of_mem cp hx))
        (fun x hx he => h4 x (List.mem_cons_of_mem cp hx) he)
      refine ⟨stF, ?_⟩
      show (do
        let (st₁, ev) ← doCall K cp.1 cp.2 st
        let (stF', evs) ← runCalls K rest st₁
        some (stF', ev :: evs)) = _
      rw [hm]
      simp only [Option.bind_eq_bind, Option.some_bind]
      rw [hF]
      rfl

/-- Warm-up events carry no static-execution instruction. -/
theorem filterMap_execStaticOf_init (l : List Nat) :
    (l.map QVMEvent.InitBuf).filterMap execStaticOf = [] := by
  induction l with
  | nil => rfl
  | cons a rest ih => simp [execStaticOf, ih]

/-- Static-execution events project back to their instructions. -/
theorem filterMap_execStaticOf_exec (l : List GInst) :
    (l.map QVMEvent.ExecStatic).filterMap execStaticOf = l := by
  induction l with
  | nil => rfl
  | cons a rest ih => simp [execStaticOf, ih]

/-- C7: over any sequence of allowed evaluation calls on a QVM with a
nonempty dynamic program — none of whose Hessian-level write calls hits the
unimplemented (`todo!()`) `Write`-instruction path — the first call produces
exactly the prelude trace, in which every `Write` destination of the static
and dynamic programs gets its identity warm-up and the static-execution
events are exactly the static program, each instruction once; and every later
call produces no prelude event: no warm-up and no static execution ever
recurs. -/
theorem c7_first_run_prelude_once (K : Kernel) (bc : Bytecode) (lvl : DiffLvl)
    (c₀ : CallKind) (ps₀ : List Int) (rest : List (CallKind × List Int))
    (hdyn : bc.dynamic_code ≠ [])
    (hc₀ : call_allowed c₀ lvl = true)
    (hrest : ∀ x ∈ rest, call_allowed x.1 lvl = true)
    (hhess : ∀ x ∈ (c₀, ps₀) :: rest,
      x.1 = CallKind.WriteUnitaryGradientAndHessian →
      bc.dynamic_code.any GInst.isWrite = false) :
    (runCalls K ((c₀, ps₀) :: rest) (qvmNew bc lvl)).map Prod.snd
        = some (preludeLog (qvmNew bc lvl) :: rest.map (fun _ => ([] : List QVMEvent)))
      ∧ (∀ b ∈ writeDests (bc.static_code ++ bc.dynamic_code),
          QVMEvent.InitBuf b ∈ preludeLog (qvmNew bc lvl))
      ∧ (preludeLog (qvmNew bc lvl)).filterMap execStaticOf = bc.static_code := by
  refine ⟨?_, ?_, ?_⟩
  · have hfr : (qvmNew bc lvl).first_run = true := rfl
    have hdy : (qvmNew bc lvl).dynamic_instructions ≠ [] := hdyn
    obtain ⟨m, hm⟩ := doCall_of_first_run K c₀ ps₀ hfr hc₀ hdy
      (hhess (c₀, ps₀) (List.mem_cons_self _ _))
    obtain ⟨stF, hF⟩ := runCalls_after_first K rest
      { qvmNew bc lvl with first_run := false, memory := m } rfl hdyn hrest
      (fun x hx he => hhess x (List.mem_cons_of_mem _ hx) he)
    show (do
      let (st₁, ev) ← doCall K c₀ ps₀ (qvmNew bc lvl)
      let (stF', evs) ← runCalls K rest st₁
      some (stF', ev :: evs)).map Prod.snd = _
    rw [hm]
    simp only [Option.bind_eq_bind, Option.some_bind]
    rw [hF]
    rfl
  · intro b hb
    simp only [writeDests, List.filterMap_append, List.mem_append] at hb
    rcases hb with hb | hb
    · exact List.mem_append_left _
        (List.mem_append_left _ (List.mem_map_of_mem QVMEvent.InitBuf hb))
    · exact List.mem_append_left _
        (List.mem_append_right _ (List.mem_map_of_mem QVMEvent.InitBuf hb))
  · show ((writeDests bc.static_code).map QVMEvent.InitBuf
        ++ (writeDests bc.dynamic_code).map QVMEvent.InitBuf
        ++ bc.static_code.map QVMEvent.ExecStatic).filterMap execStaticOf
        = bc.static_code
    rw [List.filterMap_append, List.filterMap_append, filterMap_execStaticOf_init,
      filterMap_execStaticOf_init, filterMap_execStaticOf_exec]
    rfl

/-- Witness for C7: two `get_unitary` calls on the concrete demo program —
the first call's trace is the full prelude, the second call's trace is
empty. -/
theorem c7_first_run_prelude_once_witness :
    (runCalls kernelTwo [(.GetUnitary, []), (.GetUnitary, [])]
          (qvmNew preludeDemoProg .NoDiff)).map Prod.snd
        = some (preludeLog (qvmNew preludeDemoProg .NoDiff) :: [[]])
      ∧ (∀ b ∈ writeDests (preludeDemoProg.static_code ++ preludeDemoProg.dynamic_code),
          QVMEvent.InitBuf b ∈ preludeLog (qvmNew preludeDemoProg .NoDiff))
      ∧ (preludeLog (qvmNew preludeDemoProg .NoDiff)).filterMap execStaticOf
          = preludeDemoProg.static_code :=
  c7_first_run_prelude_once kernelTwo preludeDemoProg .NoDiff .GetUnitary []
    [(.GetUnitary, [])] (by decide) (by decide) (by decide) (by decide)

/-- The three advance terms of the layout loop sum to the buffer footprint
(the Hessian term's division regroups because `np·(np+1)` is even). -/
theorem footprint_step (lvl : DiffLvl) (ms np : Nat) :
    ms + (if lvl.gradient_capable then ms * np else 0)
      + (if lvl.hessian_capable then ms * (np * (np + 1)) / 2 else 0)
    = footprint lvl ms np := by
  have h2 : 2 ∣ np * (np + 1) := (Nat.even_mul_succ_self np).two_dvd
  have hdiv : ms * (np * (np + 1)) / 2 = ms * (np * (np + 1) / 2) :=
    Nat.mul_div_assoc ms h2
  unfold footprint mat_count
  cases lvl
  · simp [DiffLvl.gradient_capable, DiffLvl.hessian_capable]
  · simp [DiffLvl.gradient_capable, DiffLvl.hessian_capable, Nat.mul_add]
  · show ms + ms * np + ms * (np * (np + 1)) / 2
      = ms * (1 + np + np * (np + 1) / 2)
    rw [hdiv, Nat.mul_add, Nat.mul_add, Nat.mul_one]
    ring

/-- One unfolding step of the layout loop: the head buffer is placed at the
running offset and the tail is laid out from the offset advanced by the head's
footprint. -/
theorem specialize_layout_cons (lvl : DiffLvl) (css : Nat → Nat → Nat)
    (mss : Nat → Nat → Nat → Nat) (b : MatrixBuffer) (rest : List MatrixBuffer)
    (start : Nat) :
    specialize_layout lvl css mss (b :: rest) start
      = (⟨start, b.nrows, b.ncols, css b.nrows b.ncols,
            mss b.nrows b.ncols (css b.nrows b.ncols), b.num_params⟩
          :: (specialize_layout lvl css mss rest
              (start + buf_footprint lvl css mss b)).1,
         (specialize_layout lvl css mss rest
              (start + buf_footprint lvl css mss b)).2) := by
  have hoff : start + mss b.nrows b.ncols (css b.nrows b.ncols)
      + (if lvl.gradient_capable
         then mss b.nrows b.ncols (css b.nrows b.ncols) * b.num_params else 0)
      + (if lvl.hessian_capable
         then mss b.nrows b.ncols (css b.nrows b.ncols)
            * (b.num_params * (b.num_params + 1)) / 2 else 0)
      = start + buf_footprint lvl css mss b := by
    have := footprint_step lvl (mss b.nrows b.ncols (css b.nrows b.ncols)) b.num_params
    unfold buf_footprint
    omega
  simp only [specialize_layout]
  rw [hoff]

/-- The layout loop's full characterization: result length, final offset, and
each sized buffer's fields — its offset is the start plus the total footprint
of the earlier buffers. -/
theorem specialize_layout_spec (lvl : DiffLvl) (css : Nat → Nat → Nat)
    (mss : Nat → Nat → Nat → Nat) : ∀ (bufs : List MatrixBuffer) (start : Nat),
    ((specialize_layout lvl css mss bufs start).1.length = bufs.length)
    ∧ ((specialize_layout lvl css mss bufs start).2
        = start + total_footprint lvl css mss bufs)
    ∧ (∀ i, i < bufs.length →
        ((specialize_layout lvl css mss bufs start).1.getD i default)
          = ⟨start + total_footprint lvl css mss (bufs.take i),
              (bufs.getD i default).nrows, (bufs.getD i default).ncols,
              css (bufs.getD i default).nrows (bufs.getD i default).ncols,
              mss (bufs.getD i default).nrows (bufs.getD i default).ncols
                (css (bufs.getD i default).nrows (bufs.getD i default).ncols),
              (bufs.getD i default).num_params⟩) := by
  intro bufs
  induction bufs with
  | nil =>
      intro start
      exact ⟨rfl, by simp [specialize_layout, total_footprint],
        fun i hi => absurd hi (by simp)⟩
  | cons b rest ih =>
      intro start
      obtain ⟨ihlen, ihsz, ihget⟩ := ih (start + buf_footprint lvl css mss b)
      rw [specialize_layout_cons]
      refine ⟨by simpa using ihlen, ?_, ?_⟩
      · show (specialize_layout lvl css mss rest
            (start + buf_footprint lvl css mss b)).2 = _
        rw [ihsz]
        simp only [total_footprint, List.map_cons, List.sum_cons]
        omega
      · intro i hi
        cases i with
        | zero =>
            simp [total_footprint]
        | succ j =>
            have hj : j < rest.length := by simpa using hi
            show (specialize_layout lvl css mss rest
                (start + buf_footprint lvl css mss b)).1.getD j default = _
            rw [ihget j hj]
            simp only [List.take_succ_cons, List.getD_cons_succ, total_footprint,
              List.map_cons, List.sum_cons]
            all_goals congr 1
            all_goals omega

/-- Total footprints of prefixes grow with the prefix length. -/
theorem total_footprint_take_mono (lvl : DiffLvl) (css : Nat → Nat → Nat)
    (mss : Nat → Nat → Nat → Nat) (l : List MatrixBuffer) {m n : Nat} (h : m ≤ n) :
    total_footprint lvl css mss (l.take m) ≤ total_footprint lvl css mss (l.take n) := by
  conv_rhs => rw [← List.take_append_drop m (l.take n)]
  rw [List.take_take, Nat.min_eq_left h]
  simp only [total_footprint, List.map_append, List.sum_append]
  exact Nat.le_add_right _ _

/-- The total footprint of one more prefix element. -/
theorem total_footprint_take_succ (lvl : DiffLvl) (css : Nat → Nat → Nat)
    (mss : Nat → Nat → Nat → Nat) (l : List MatrixBuffer) {i : Nat}
    (h : i < l.length) :
    total_footprint lvl css mss (l.take (i + 1))
      = total_footprint lvl css mss (l.take i)
        + buf_footprint lvl css mss (l.getD i default) := by
  rw [List.take_succ]
  have hg : l[i]? = some (l.getD i default) := by
    rw [List.getElem?_eq_getElem h, List.getD_eq_getElem l default h]
  rw [hg]
  simp [total_footprint]

/-- C8: under strides covering the matrix area, `Bytecode::specialize` places
each buffer at the sum of the footprints of all earlier buffers (footprint =
`mat_stride` times the level's matrix count), the returned memory size is the
total footprint, the footprint regions of distinct buffers are disjoint, and
every matrix slab of a buffer lies inside the buffer's footprint region. -/
theorem c8_specialize_layout_offsets (lvl : DiffLvl) (css : Nat → Nat → Nat)
    (mss : Nat → Nat → Nat → Nat) (bufs : List MatrixBuffer)
    (h : ∀ b ∈ bufs, b.nrows * b.ncols ≤ css b.nrows b.ncols * b.ncols
        ∧ css b.nrows b.ncols * b.ncols ≤ mss b.nrows b.ncols (css b.nrows b.ncols)) :
    (∀ i, i < bufs.length →
        layout_offset lvl css mss bufs i
          = total_footprint lvl css mss (bufs.take i))
      ∧ (specialize_layout lvl css mss bufs 0).2 = total_footprint lvl css mss bufs
      ∧ (∀ i j, i < j → j < bufs.length →
          layout_offset lvl css mss bufs i
              + buf_footprint lvl css mss (bufs.getD i default)
            ≤ layout_offset lvl css mss bufs j)
      ∧ (∀ i j x, i < bufs.length → j < bufs.length → i ≠ j →
          in_buffer_region lvl css mss bufs i x →
          ¬ in_buffer_region lvl css mss bufs j x)
      ∧ (∀ i, i < bufs.length → ∀ k, k < mat_count lvl (bufs.getD i default).num_params →
          k * mss (bufs.getD i default).nrows (bufs.getD i default).ncols
              (css (bufs.getD i default).nrows (bufs.getD i default).ncols)
            + css (bufs.getD i default).nrows (bufs.getD i default).ncols
              * (bufs.getD i default).ncols
            ≤ buf_footprint lvl css mss (bufs.getD i default)) := by
  obtain ⟨hlen, hsz, hget⟩ := specialize_layout_spec lvl css mss bufs 0
  have hoffs : ∀ i, i < bufs.length →
      layout_offset lvl css mss bufs i
        = total_footprint lvl css mss (bufs.take i) := by
    intro i hi
    unfold layout_offset
    rw [hget i hi]
    simp
  have hord : ∀ i j, i < j → j < bufs.length →
      layout_offset lvl css mss bufs i
          + buf_footprint lvl css mss (bufs.getD i default)
        ≤ layout_offset lvl css mss bufs j := by
    intro i j hij hj
    have hi : i < bufs.length := Nat.lt_trans hij hj
    rw [hoffs i hi, hoffs j hj]
    rw [← total_footprint_take_succ lvl css mss bufs hi]
    exact total_footprint_take_mono lvl css mss bufs hij
  refine ⟨hoffs, by simpa using hsz, hord, ?_, ?_⟩
  · intro i j x hi hj hij hx hx'
    rcases Nat.lt_or_ge i j with hlt | hge
    · have := hord i j hlt hj
      unfold in_buffer_region at hx hx'
      omega
    · have hlt : j < i := Nat.lt_of_le_of_ne hge (fun he => hij he.symm)
      have := hord j i hlt hi
      unfold in_buffer_region at hx hx'
      omega
  · intro i hi k hk
    have hmem : bufs.getD i default ∈ bufs := by
      rw [List.getD_eq_getElem bufs default hi]
      exact List.getElem_mem hi
    obtain ⟨_, h2⟩ := h _ hmem
    unfold buf_footprint footprint
    have hk1 : k + 1 ≤ mat_count lvl (bufs.getD i default).num_params := hk
    have hmul := Nat.mul_le_mul_right
      (mss (bufs.getD i default).nrows (bufs.getD i default).ncols
        (css (bufs.getD i default).nrows (bufs.getD i default).ncols)) hk1
    have hexp : (k + 1) * mss (bufs.getD i default).nrows (bufs.getD i default).ncols
          (css (bufs.getD i default).nrows (bufs.getD i default).ncols)
        = k * mss (bufs.getD i default).nrows (bufs.getD i default).ncols
            (css (bufs.getD i default).nrows (bufs.getD i default).ncols)
          + mss (bufs.getD i default).nrows (bufs.getD i default).ncols
            (css (bufs.getD i default).nrows (bufs.getD i default).ncols) := by
      ring
    rw [hexp] at hmul
    have hcomm : mss (bufs.getD i default).nrows (bufs.getD i default).ncols
          (css (bufs.getD i default).nrows (bufs.getD i default).ncols)
          * mat_count lvl (bufs.getD i default).num_params
        = mat_count lvl (bufs.getD i default).num_params
          * mss (bufs.getD i default).nrows (bufs.getD i default).ncols
            (css (bufs.getD i default).nrows (bufs.getD i default).ncols) := by
      ring
    omega

/-- Witness for C8 at a concrete two-buffer layout with natural strides at
the Hessian level. -/
theorem c8_specialize_layout_offsets_witness :
    (∀ i, i < ([⟨2, 2, 1⟩, ⟨3, 3, 2⟩] : List MatrixBuffer).length →
        layout_offset .Hessian (fun r _ => r) (fun _ c cs => cs * c)
            [⟨2, 2, 1⟩, ⟨3, 3, 2⟩] i
          = total_footprint .Hessian (fun r _ => r) (fun _ c cs => cs * c)
              (([⟨2, 2, 1⟩, ⟨3, 3, 2⟩] : List MatrixBuffer).take i))
      ∧ (specialize_layout .Hessian (fun r _ => r) (fun _ c cs => cs * c)
            [⟨2, 2, 1⟩, ⟨3, 3, 2⟩] 0).2
          = total_footprint .Hessian (fun r _ => r) (fun _ c cs => cs * c)
              [⟨2, 2, 1⟩, ⟨3, 3, 2⟩]
      ∧ (∀ i j, i < j → j < ([⟨2, 2, 1⟩, ⟨3, 3, 2⟩] : List MatrixBuffer).length →
          layout_offset .Hessian (fun r _ => r) (fun _ c cs => cs * c)
              [⟨2, 2, 1⟩, ⟨3, 3, 2⟩] i
              + buf_footprint .Hessian (fun r _ => r) (fun _ c cs => cs * c)
                (([⟨2, 2, 1⟩, ⟨3, 3, 2⟩] : List MatrixBuffer).getD i default)
            ≤ layout_offset .Hessian (fun r _ => r) (fun _ c cs => cs * c)
                [⟨2, 2, 1⟩, ⟨3, 3, 2⟩] j)
      ∧ (∀ i j x, i < ([⟨2, 2, 1⟩, ⟨3, 3, 2⟩] : List MatrixBuffer).length →
          j < ([⟨2, 2, 1⟩, ⟨3, 3, 2⟩] : List MatrixBuffer).length → i ≠ j →
          in_buffer_region .Hessian (fun r _ => r) (fun _ c cs => cs * c)
            [⟨2, 2, 1⟩, ⟨3, 3, 2⟩] i x →
          ¬ in_buffer_region .Hessian (fun r _ => r) (fun _ c cs => cs * c)
            [⟨2, 2, 1⟩, ⟨3, 3, 2⟩] j x)
      ∧ (∀ i, i < ([⟨2, 2, 1⟩, ⟨3, 3, 2⟩] : List MatrixBuffer).length →
          ∀ k, k < mat_count .Hessian
              (([⟨2, 2, 1⟩, ⟨3, 3, 2⟩] : List MatrixBuffer).getD i default).num_params →
          k * (fun _ c cs => cs * c)
              (([⟨2, 2, 1⟩, ⟨3, 3, 2⟩] : List MatrixBuffer).getD i default).nrows
              (([⟨2, 2, 1⟩, ⟨3, 3, 2⟩] : List MatrixBuffer).getD i default).ncols
              ((fun r _ => r)
                (([⟨2, 2, 1⟩, ⟨3, 3, 2⟩] : List MatrixBuffer).getD i default).nrows
                (([⟨2, 2, 1⟩, ⟨3, 3, 2⟩] : List MatrixBuffer).getD i default).ncols)
            + (fun r _ => r)
                (([⟨2, 2, 1⟩, ⟨3, 3, 2⟩] : List MatrixBuffer).getD i default).nrows
                (([⟨2, 2, 1⟩, ⟨3, 3, 2⟩] : List MatrixBuffer).getD i default).ncols
              * (([⟨2, 2, 1⟩, ⟨3, 3, 2⟩] : List MatrixBuffer).getD i default).ncols
            ≤ buf_footprint .Hessian (fun r _ => r) (fun _ c cs => cs * c)
                (([⟨2, 2, 1⟩, ⟨3, 3, 2⟩] : List MatrixBuffer).getD i default)) :=
  c8_specialize_layout_offsets .Hessian (fun r _ => r) (fun _ c cs => cs * c)
    [⟨2, 2, 1⟩, ⟨3, 3, 2⟩] (by decide)
